import Mathlib

/-!
Verification model of the owls-cache function-result caching layer.

The development shallowly embeds the repository's Python source:

* `src/owls_cache/transient.py` — the transient (in-process, LRU-bounded)
  memoization decorator built on per-name `OrderedDict` caches
  (`set_cache_limit`, the `cached` wrapper, default limit 5);
* `src/owls_cache/persistent/__init__.py` — the persistent memoization
  decorator resolving a backend from the `cache` keyword argument or the
  global persistent cache;
* `src/owls_cache/persistent/caches/__init__.py` — the base
  `PersistentCache.key` (hash-based default key);
* `src/owls_cache/persistent/caches/fs.py` and
  `src/owls_cache/backends/fs.py` — the two filesystem `get`
  implementations (the current one, which propagates deserialization
  failures, and the legacy one, which converts them to absence);
* `src/owls_cache/persistent/caches/redis.py` — the redis cache's
  prefix handling, pickling state and human-legible key rendering.

Python values are modelled by the inductive `PyVal` (with `PyVal.none`
playing the role of Python's `None`); a Python exception aborting a call
is modelled with `Except` (the post-exception global state is not
observed by any statement below).  The number of invocations of the
wrapped computation during one memoized call is returned explicitly so
that the spec's "computation count" properties can be stated.
-/

/-- A Python value, as far as the caching layer inspects one: `None`,
booleans, integers and strings.  `PyVal.none` models Python's `None`. -/
inductive PyVal where
  | none
  | bool (b : Bool)
  | int (n : Int)
  | str (s : String)
deriving DecidableEq

/-- Lookup in an association list modelling a Python `dict`
(first binding for the key, `Option.none` when the key is absent). -/
def alFind {α β : Type} [DecidableEq α] : List (α × β) → α → Option β
  | [], _ => Option.none
  | p :: ps, k => if p.1 = k then some p.2 else alFind ps k

/-- `del d[k]` on a Python `dict` (keys are unique, so removing every
binding for the key coincides with removing the one binding). -/
def alErase {α β : Type} [DecidableEq α] : List (α × β) → α → List (α × β)
  | [], _ => []
  | p :: ps, k => if p.1 = k then alErase ps k else p :: alErase ps k

/-- `d[k] = v` on a Python `dict`/`OrderedDict`: an existing binding is
updated in place (keeping its position); a new key is appended at the
end of the insertion order. -/
def alSet {α β : Type} [DecidableEq α] : List (α × β) → α → β → List (α × β)
  | [], k, v => [(k, v)]
  | p :: ps, k, v => if p.1 = k then (k, v) :: ps else p :: alSet ps k v

/-- Python `str()` on the modelled values. -/
def pyStr : PyVal → String
  | PyVal.none => "None"
  | PyVal.bool b => if b then "True" else "False"
  | PyVal.int n => toString n
  | PyVal.str s => s

/-- Python `repr()` on the modelled values (string escaping is not
modelled; the inputs used in this development contain no quotes). -/
def pyRepr : PyVal → String
  | PyVal.none => "None"
  | PyVal.bool b => if b then "True" else "False"
  | PyVal.int n => toString n
  | PyVal.str s => "'" ++ s ++ "'"

/-! ## Transient caching (`src/owls_cache/transient.py`) -/

/-- A transient cache key: the tuple returned by the caller-supplied
mapper function. -/
abbrev CacheKey := List PyVal

/-- One named transient cache: the `OrderedDict` from mapped-argument
keys to cached values, front = least recently used. -/
abbrev TCache := List (CacheKey × PyVal)

/-- `cache.get(key)` on an `OrderedDict` with default `None`: Python
conflates an absent key with a stored `None` value here. -/
def cacheGet (c : TCache) (k : CacheKey) : PyVal :=
  match alFind c k with
  | some v => v
  | Option.none => PyVal.none

/-- `cache[key] = cache.pop(key)` — the cache-hit recency refresh:
the entry is removed and re-appended at the most-recently-used end. -/
def moveToBack (c : TCache) (k : CacheKey) : TCache :=
  alErase c k ++ [(k, cacheGet c k)]

/-- `while len(cache) >= cache_limit: cache.popitem(last = False)` —
the eviction loop run on a cache miss.  Each iteration pops the
least-recently-used (front) entry; `popitem` on an empty dict raises
`KeyError`, modelled as `Except.error`. -/
def shrinkCache (limit : Int) : TCache → Except Unit TCache
  | [] => if (0 : Int) ≥ limit then Except.error () else Except.ok []
  | p :: ps =>
    if ((p :: ps).length : Int) ≥ limit then shrinkCache limit ps
    else Except.ok (p :: ps)

/-- The module-level mutable state of `owls_cache.transient`:
`_cache_limits` (a `defaultdict` with default limit 5, `Option.none`
meaning an unlimited cache) and `_caches` (a `defaultdict` of
`OrderedDict`s).  Cache names are arbitrary Python values, since the
`cache` keyword argument is used directly as the dictionary key. -/
structure TransientState where
  limits : List (PyVal × Option Int)
  caches : List (PyVal × TCache)
deriving DecidableEq

/-- The initial module state: no limits configured, no caches. -/
def initState : TransientState := { limits := [], caches := [] }

/-- `set_cache_limit(name, limit)` — a plain assignment into
`_cache_limits`; the source performs no validation of `limit`. -/
def set_cache_limit (st : TransientState) (name : PyVal) (limit : Option Int) :
    TransientState :=
  { st with limits := alSet st.limits name limit }

/-- `_cache_limits[cache_name]` — the effective limit of a named cache
(default 5 when never configured). -/
def limitOf (st : TransientState) (n : PyVal) : Option Int :=
  match alFind st.limits n with
  | some l => l
  | Option.none => some 5

/-- `_caches[cache_name]` — the named cache (empty when never used). -/
def cacheOf (st : TransientState) (n : PyVal) : TCache :=
  match alFind st.caches n with
  | some c => c
  | Option.none => []

/-- The `defaultdict` reads `_caches[cache_name]` and
`_cache_limits[cache_name]` insert their defaults on a missing key. -/
def ensureDefaults (st : TransientState) (n : PyVal) : TransientState :=
  { limits :=
      match alFind st.limits n with
      | some _ => st.limits
      | Option.none => st.limits ++ [(n, some 5)]
    caches :=
      match alFind st.caches n with
      | some _ => st.caches
      | Option.none => st.caches ++ [(n, [])] }

/-- The body of the transient `cached` wrapper after the `cache`
keyword argument has been resolved, the key mapped, and the wrapped
computation's (pure) value precomputed.  The returned `Nat` counts how
often the wrapped computation ran during this call. -/
def transientCallCore (cache_name : PyVal) (key : CacheKey) (fval : PyVal)
    (st : TransientState) : Except Unit (PyVal × TransientState × Nat) :=
  if cache_name = PyVal.none then
    Except.ok (fval, st, 1)
  else
    let st' := ensureDefaults st cache_name
    let cache := cacheOf st' cache_name
    let cache_limit := limitOf st' cache_name
    let result := cacheGet cache key
    if result ≠ PyVal.none then
      Except.ok (result,
        { st' with caches := alSet st'.caches cache_name (moveToBack cache key) },
        0)
    else
      match
        match cache_limit with
        | some l => shrinkCache l cache
        | Option.none => Except.ok cache
      with
      | Except.error e => Except.error e
      | Except.ok cache' =>
        Except.ok (fval,
          { st' with caches := alSet st'.caches cache_name (alSet cache' key fval) },
          1)

/-- One call of a transiently `cached(name, mapper)`-decorated function
`f`: resolve `cache_name = kwargs.get('cache', name)`, mask the `cache`
keyword argument, map the key, then run the cached-call body. -/
def transientCall (name : String)
    (mapper : List PyVal → List (String × PyVal) → CacheKey)
    (f : List PyVal → List (String × PyVal) → PyVal)
    (st : TransientState)
    (args : List PyVal) (kwargs : List (String × PyVal)) :
    Except Unit (PyVal × TransientState × Nat) :=
  let cache_name :=
    match alFind kwargs "cache" with
    | some v => v
    | Option.none => PyVal.str name
  let kwargs' := alErase kwargs "cache"
  transientCallCore cache_name (mapper args kwargs') (f args kwargs') st

/-! ## Persistent caching (`src/owls_cache/persistent/__init__.py`) -/

/-- A persistent cache backend instance over an external store of type
`S`: the `key`/`get`/`set` contract of `PersistentCache`.  `get`
returns the stored value or `PyVal.none` for absence. -/
structure PBackend (S : Type) where
  key : String → CacheKey → String
  get : S → String → PyVal
  set : S → String → PyVal → S

/-- A keyword-argument value of a persistently cached call: either an
ordinary Python value or a backend instance (the `cache` argument). -/
inductive KwVal (S : Type) where
  | py (v : PyVal)
  | backend (b : PBackend S)

/-- The body of the persistent `cached` wrapper after the `cache`
keyword argument has been resolved, the argument key mapped, and the
wrapped computation's (pure) value precomputed: with no backend
(`cache is None`) the call runs uncached; a non-backend non-`None`
`cache` value makes the attribute access `cache.key` raise; otherwise
the backend is consulted with the hit test `result is not None`.  The
returned `Nat` counts invocations of the wrapped computation. -/
def persistentCallCore {S : Type} (name : String) (cacheArg : KwVal S)
    (argument_key : CacheKey) (fval : PyVal) (store : S) :
    Except Unit (PyVal × S × Nat) :=
  match cacheArg with
  | KwVal.py PyVal.none => Except.ok (fval, store, 1)
  | KwVal.py _ => Except.error ()
  | KwVal.backend cache =>
    let key := cache.key name argument_key
    let result := cache.get store key
    if result ≠ PyVal.none then
      Except.ok (result, store, 0)
    else
      Except.ok (fval, cache.set store key fval, 1)

/-- One call of a persistently `cached(name, mapper)`-decorated
function `f`: resolve `cache = kwargs.get('cache',
get_persistent_cache())`, mask the `cache` keyword argument, map the
argument key, then run the cached-call body. -/
def persistentCall {S : Type} (name : String)
    (mapper : List PyVal → List (String × KwVal S) → CacheKey)
    (f : List PyVal → List (String × KwVal S) → PyVal)
    (globalCache : Option (PBackend S))
    (store : S)
    (args : List PyVal) (kwargs : List (String × KwVal S)) :
    Except Unit (PyVal × S × Nat) :=
  let cacheArg : KwVal S :=
    match alFind kwargs "cache" with
    | some v => v
    | Option.none =>
      match globalCache with
      | some b => KwVal.backend b
      | Option.none => KwVal.py PyVal.none
  let kwargs' := alErase kwargs "cache"
  persistentCallCore name cacheArg (mapper args kwargs') (f args kwargs') store

/-! ## The base persistent cache key
(`src/owls_cache/persistent/caches/__init__.py`) -/

/-- Python `repr` of the positional-argument tuple. -/
def pyReprTuple (xs : List PyVal) : String :=
  match xs with
  | [] => "()"
  | [x] => "(" ++ pyRepr x ++ ",)"
  | _ => "(" ++ String.intercalate ", " (xs.map pyRepr) ++ ")"

/-- Python `repr` of the keyword-argument dict (in binding order). -/
def pyReprDict (kw : List (String × PyVal)) : String :=
  match kw with
  | [] => "\x7b\x7d"
  | _ => "\x7b" ++
      String.intercalate ", "
        (kw.map (fun p => "'" ++ p.1 ++ "': " ++ pyRepr p.2)) ++ "\x7d"

/-- `PersistentCache.key(name, args, kwargs)` — the base class's
default key: `'{0}_{1}'.format(name, hash(repr(args) + repr(kwargs)))`.
Python's `hash` builtin is implementation-defined, so it is a parameter
`pyHash` of the model. -/
def PersistentCache.key (pyHash : String → Int) (name : String)
    (args : List PyVal) (kwargs : List (String × PyVal)) : String :=
  name ++ "_" ++ toString (pyHash (pyReprTuple args ++ pyReprDict kwargs))

/-- Modelled from the spec: the Cache Key Builder strategy (b), the
precise/human-legible rendering `funcname(arg1, arg2, kw=val)` of a
namespace and its arguments (spec sections 4.1 and 4.3).  Stated here
only for comparison with the source's key functions. -/
def specLegibleKey (name : String) (args : List PyVal)
    (kwargs : List (String × PyVal)) : String :=
  let key_args := String.intercalate ", " (args.map pyRepr)
  let key_kwargs := String.intercalate ", "
    (kwargs.map (fun p => p.1 ++ "=" ++ pyRepr p.2))
  let sep := if key_args ≠ "" ∧ key_kwargs ≠ "" then ", " else ""
  name ++ "(" ++ key_args ++ sep ++ key_kwargs ++ ")"

/-! ## The redis cache (`src/owls_cache/persistent/caches/redis.py`) -/

/-- A `redis.StrictRedis` client, abstracted to the configuration it
was constructed from (the connection is established lazily). -/
structure RedisClient where
  args : List PyVal
  kwargs : List (String × PyVal)
deriving DecidableEq

/-- A `RedisPersistentCache` instance: the stored construction
arguments (`self._args`, `self._kwargs`), the computed key prefix
(`self._prefix`) and the client. -/
structure RedisPersistentCache where
  args : List PyVal
  kwargs : List (String × PyVal)
  pfx : String
  client : RedisClient
deriving DecidableEq

/-- `RedisPersistentCache.__init__`: extract the `prefix` keyword
argument (appending a dash when present), mask it from the
`StrictRedis` arguments, store the creation arguments for pickling and
create the client. -/
def RedisPersistentCache.init (args : List PyVal)
    (kwargs : List (String × PyVal)) : RedisPersistentCache :=
  let pfxArg :=
    match alFind kwargs "prefix" with
    | some v => v
    | Option.none => PyVal.none
  let pfx :=
    match pfxArg with
    | PyVal.none => ""
    | v => pyStr v ++ "-"
  let kwargs' := alErase kwargs "prefix"
  { args := args, kwargs := kwargs', pfx := pfx,
    client := { args := args, kwargs := kwargs' } }

/-- `__getstate__`: the reconstructable pickling state
`(self._args, self._kwargs, self._prefix)`. -/
def RedisPersistentCache.getstate (c : RedisPersistentCache) :
    List PyVal × List (String × PyVal) × String :=
  (c.args, c.kwargs, c.pfx)

/-- `__setstate__`: restore the fields and recreate the client from
the stored construction arguments. -/
def RedisPersistentCache.setstate
    (state : List PyVal × List (String × PyVal) × String) :
    RedisPersistentCache :=
  { args := state.1, kwargs := state.2.1, pfx := state.2.2,
    client := { args := state.1, kwargs := state.2.1 } }

/-- `RedisPersistentCache.key(name, args, kwargs)` — the overriding
human-legible key `prefix`-`name(arg1, ..., kwarg1=val1, ...)`. -/
def RedisPersistentCache.key (c : RedisPersistentCache) (name : String)
    (args : List PyVal) (kwargs : List (String × PyVal)) : String :=
  let key_args := String.intercalate ", " (args.map pyRepr)
  let key_kwargs := String.intercalate ", "
    (kwargs.map (fun p => p.1 ++ "=" ++ pyRepr p.2))
  let key_args :=
    if key_args ≠ "" ∧ key_kwargs ≠ "" then key_args ++ ", " else key_args
  c.pfx ++ name ++ "(" ++ key_args ++ key_kwargs ++ ")"

/-! ## The filesystem caches (`src/owls_cache/persistent/caches/fs.py`
and the legacy `src/owls_cache/backends/fs.py`) -/

/-- The content of a stored cache file, through the opaque
serialization codec: a well-formed pickle of a value, or corrupt
(undeserializable) bytes. -/
inductive SerData where
  | ser (v : PyVal)
  | corrupt
deriving DecidableEq

/-- A filesystem node: a regular file with its content, or a
directory. -/
inductive FsNode where
  | file (d : SerData)
  | dir
deriving DecidableEq

/-- The filesystem, as a map from paths to nodes. -/
abbrev FileSystem := List (String × FsNode)

/-- `cPickle.load`: deserialization, failing on corrupt content. -/
def pickleLoad : SerData → Except Unit PyVal
  | SerData.ser v => Except.ok v
  | SerData.corrupt => Except.error ()

/-- `FileSystemPersistentCache.get(key)` (the current implementation,
`persistent/caches/fs.py`): a missing path or a non-regular-file path
reports absence (`None`); otherwise the file is loaded, and a
deserialization failure propagates as an exception. -/
def FileSystemPersistentCache.get (fs : FileSystem) (key : String) :
    Except Unit PyVal :=
  match alFind fs key with
  | Option.none => Except.ok PyVal.none
  | some FsNode.dir => Except.ok PyVal.none
  | some (FsNode.file d) => pickleLoad d

/-- `FileSystemPersistentCache.set(key, value)`: serialize and write,
replacing any previous content. -/
def FileSystemPersistentCache.set (fs : FileSystem) (key : String)
    (v : PyVal) : FileSystem :=
  alSet fs key (FsNode.file (SerData.ser v))

/-- `FileSystemPersistentCachingBackend._path_for_key(key)` (legacy,
`backends/fs.py`): `join(self._path, '{0}.pickle'.format(hash(key)))`. -/
def pathForKey (pyHash : String → Int) (root : String) (key : String) : String :=
  root ++ "/" ++ toString (pyHash key) ++ ".pickle"

/-- `FileSystemPersistentCachingBackend.get(key)` (legacy,
`backends/fs.py`): like the current implementation, but the load is
wrapped in a catch-all that converts any failure to absence. -/
def FileSystemPersistentCachingBackend.get (pyHash : String → Int)
    (root : String) (fs : FileSystem) (key : String) : PyVal :=
  let key_path := pathForKey pyHash root key
  match alFind fs key_path with
  | Option.none => PyVal.none
  | some FsNode.dir => PyVal.none
  | some (FsNode.file d) =>
    match pickleLoad d with
    | Except.ok v => v
    | Except.error _ => PyVal.none

/-! ## Generic lemmas about the dictionary model -/

instance {ε α : Type} [DecidableEq ε] [DecidableEq α] : DecidableEq (Except ε α)
  | Except.error x, Except.error y =>
    if h : x = y then isTrue (by rw [h])
    else isFalse (by intro hc; cases hc; exact h rfl)
  | Except.error _, Except.ok _ => isFalse (by intro h; cases h)
  | Except.ok _, Except.error _ => isFalse (by intro h; cases h)
  | Except.ok x, Except.ok y =>
    if h : x = y then isTrue (by rw [h])
    else isFalse (by intro hc; cases hc; exact h rfl)

theorem alFind_alSet_self {α β : Type} [DecidableEq α]
    (l : List (α × β)) (k : α) (v : β) : alFind (alSet l k v) k = some v := by
  induction l with
  | nil => simp [alSet, alFind]
  | cons p ps ih =>
    by_cases h : p.1 = k
    · simp [alSet, alFind, h]
    · simp [alSet, alFind, h, ih]

theorem alFind_eq_none_iff {α β : Type} [DecidableEq α]
    (l : List (α × β)) (k : α) :
    alFind l k = Option.none ↔ ∀ p ∈ l, p.1 ≠ k := by
  induction l with
  | nil => simp [alFind]
  | cons p ps ih =>
    by_cases h : p.1 = k
    · simp [alFind, h]
    · simp [alFind, h, ih]

theorem alSet_of_fresh {α β : Type} [DecidableEq α]
    {l : List (α × β)} {k : α} (v : β) (h : alFind l k = Option.none) :
    alSet l k v = l ++ [(k, v)] := by
  induction l with
  | nil => simp [alSet]
  | cons p ps ih =>
    rw [alFind_eq_none_iff] at h
    have hp : p.1 ≠ k := h p (by simp)
    have hps : alFind ps k = Option.none := by
      rw [alFind_eq_none_iff]; intro q hq; exact h q (by simp [hq])
    simp [alSet, hp, ih hps]

theorem alErase_of_fresh {α β : Type} [DecidableEq α]
    {l : List (α × β)} {k : α} (h : alFind l k = Option.none) :
    alErase l k = l := by
  induction l with
  | nil => simp [alErase]
  | cons p ps ih =>
    rw [alFind_eq_none_iff] at h
    have hp : p.1 ≠ k := h p (by simp)
    have hps : alFind ps k = Option.none := by
      rw [alFind_eq_none_iff]; intro q hq; exact h q (by simp [hq])
    simp [alErase, hp, ih hps]

theorem alFind_append_of_none {α β : Type} [DecidableEq α]
    {l₁ : List (α × β)} (l₂ : List (α × β)) {k : α}
    (h : alFind l₁ k = Option.none) :
    alFind (l₁ ++ l₂) k = alFind l₂ k := by
  induction l₁ with
  | nil => simp
  | cons p ps ih =>
    rw [alFind_eq_none_iff] at h
    have hp : p.1 ≠ k := h p (by simp)
    have hps : alFind ps k = Option.none := by
      rw [alFind_eq_none_iff]; intro q hq; exact h q (by simp [hq])
    simp [alFind, hp, ih hps]

/-! ## Lemmas about the eviction loop -/

theorem shrinkCache_of_lt {c : TCache} {limit : Int}
    (h : (c.length : Int) < limit) : shrinkCache limit c = Except.ok c := by
  cases c with
  | nil => simp [shrinkCache]; omega
  | cons p ps => rw [shrinkCache]; rw [if_neg (by omega)]

theorem shrinkCache_full {c : TCache} {N : ℕ}
    (hN : 1 ≤ N) (h : c.length = N) :
    shrinkCache (N : Int) c = Except.ok c.tail := by
  cases c with
  | nil => simp at h; omega
  | cons p ps =>
    rw [shrinkCache, if_pos (by rw [h])]
    have : (ps.length : Int) < (N : Int) := by
      simp at h; omega
    rw [shrinkCache_of_lt this]
    rfl

theorem shrinkCache_err {limit : Int} (h : limit ≤ 0) (c : TCache) :
    shrinkCache limit c = Except.error () := by
  induction c with
  | nil => simp [shrinkCache]; omega
  | cons p ps ih =>
    rw [shrinkCache, if_pos (by omega)]
    exact ih

theorem shrinkCache_ok_of_pos {limit : Int} (h : 1 ≤ limit) (c : TCache) :
    ∃ c', shrinkCache limit c = Except.ok c' := by
  induction c with
  | nil => exact ⟨[], by simp [shrinkCache]; omega⟩
  | cons p ps ih =>
    rw [shrinkCache]
    by_cases hc : ((p :: ps).length : Int) ≥ limit
    · rw [if_pos hc]; exact ih
    · rw [if_neg hc]; exact ⟨p :: ps, rfl⟩

/-! ## Lemmas about the transient module state -/

theorem limitOf_ensure (st : TransientState) (n : PyVal) :
    limitOf (ensureDefaults st n) n = limitOf st n := by
  unfold limitOf ensureDefaults
  cases h : alFind st.limits n with
  | some l => simp [h]
  | none =>
    simp [h, alFind_append_of_none _ h, alFind]

theorem cacheOf_ensure (st : TransientState) (n : PyVal) :
    cacheOf (ensureDefaults st n) n = cacheOf st n := by
  unfold cacheOf ensureDefaults
  cases h : alFind st.caches n with
  | some c => simp [h]
  | none =>
    simp [h, alFind_append_of_none _ h, alFind]

theorem cacheOf_write (st : TransientState) (n : PyVal) (c : TCache) :
    cacheOf { st with caches := alSet st.caches n c } n = c := by
  unfold cacheOf
  rw [alFind_alSet_self]

/-! ## Step lemmas for the transient wrapper -/

theorem transientCall_eq (name : String)
    (mapper : List PyVal → List (String × PyVal) → CacheKey)
    (f : List PyVal → List (String × PyVal) → PyVal)
    (st : TransientState) (args : List PyVal)
    (kwargs : List (String × PyVal)) :
    transientCall name mapper f st args kwargs =
      transientCallCore
        (match alFind kwargs "cache" with
         | some v => v
         | Option.none => PyVal.str name)
        (mapper args (alErase kwargs "cache"))
        (f args (alErase kwargs "cache")) st := rfl

theorem core_disabled (key : CacheKey) (fv : PyVal) (st : TransientState) :
    transientCallCore PyVal.none key fv st = Except.ok (fv, st, 1) := by
  unfold transientCallCore
  rw [if_pos rfl]

theorem core_hit (cn : PyVal) (key : CacheKey) (fv : PyVal)
    (st : TransientState) (v : PyVal)
    (hcn : cn ≠ PyVal.none)
    (hget : cacheGet (cacheOf st cn) key = v)
    (hv : v ≠ PyVal.none) :
    transientCallCore cn key fv st =
      Except.ok (v,
        { ensureDefaults st cn with
          caches := alSet (ensureDefaults st cn).caches cn
            (moveToBack (cacheOf st cn) key) }, 0) := by
  unfold transientCallCore
  rw [if_neg hcn]
  simp only [cacheOf_ensure, limitOf_ensure, hget]
  rw [if_pos hv]

theorem core_miss (cn : PyVal) (key : CacheKey) (fv : PyVal)
    (st : TransientState) (l : Int) (c' : TCache)
    (hcn : cn ≠ PyVal.none)
    (hget : cacheGet (cacheOf st cn) key = PyVal.none)
    (hlim : limitOf st cn = some l)
    (hshrink : shrinkCache l (cacheOf st cn) = Except.ok c') :
    transientCallCore cn key fv st =
      Except.ok (fv,
        { ensureDefaults st cn with
          caches := alSet (ensureDefaults st cn).caches cn (alSet c' key fv) },
        1) := by
  unfold transientCallCore
  rw [if_neg hcn]
  simp only [cacheOf_ensure, limitOf_ensure, hget, hlim, hshrink]
  simp

theorem core_miss_unlimited (cn : PyVal) (key : CacheKey) (fv : PyVal)
    (st : TransientState)
    (hcn : cn ≠ PyVal.none)
    (hget : cacheGet (cacheOf st cn) key = PyVal.none)
    (hlim : limitOf st cn = Option.none) :
    transientCallCore cn key fv st =
      Except.ok (fv,
        { ensureDefaults st cn with
          caches := alSet (ensureDefaults st cn).caches cn
            (alSet (cacheOf st cn) key fv) }, 1) := by
  unfold transientCallCore
  rw [if_neg hcn]
  simp only [cacheOf_ensure, limitOf_ensure, hget, hlim]
  simp

theorem core_miss_err (cn : PyVal) (key : CacheKey) (fv : PyVal)
    (st : TransientState) (l : Int)
    (hcn : cn ≠ PyVal.none)
    (hget : cacheGet (cacheOf st cn) key = PyVal.none)
    (hlim : limitOf st cn = some l)
    (hshrink : shrinkCache l (cacheOf st cn) = Except.error ()) :
    transientCallCore cn key fv st = Except.error () := by
  unfold transientCallCore
  rw [if_neg hcn]
  simp only [cacheOf_ensure, limitOf_ensure, hget, hlim, hshrink]
  simp

/-! ## The LRU insertion scenarios

The spec's LRU properties are exercised through memoized calls of a
function cached under the name `"c"`, with the identity mapper (so the
mapped-argument key of the call `f(k)` is the one-element tuple
`([PyVal.int k])`) and a computation returning `True`. -/

/-- The cache name used by the LRU scenarios (`_caches` key). -/
def lruName : PyVal := PyVal.str "c"

/-- The mapper of the LRU scenarios: the identity on positional
arguments. -/
def lruMapper : List PyVal → List (String × PyVal) → CacheKey :=
  fun a _ => a

/-- The wrapped computation of the LRU scenarios: it returns `True`. -/
def lruFun : List PyVal → List (String × PyVal) → PyVal :=
  fun _ _ => PyVal.bool true

/-- The cache entry left by the memoized call `f(k)`. -/
def entryOf (k : Int) : CacheKey × PyVal :=
  ([PyVal.int k], PyVal.bool true)

/-- A sequence of memoized calls `f(k)` for `k` in `ks` ("inserting
keys"), threading the module state; an exception aborts the run. -/
def insertCalls : TransientState → List Int → Except Unit TransientState
  | st, [] => Except.ok st
  | st, k :: rest =>
    match transientCall "c" lruMapper lruFun st [PyVal.int k] [] with
    | Except.error e => Except.error e
    | Except.ok (_, st', _) => insertCalls st' rest

/-- The module state in which cache `"c"` has limit `N` and content
`c`, as reached by the LRU scenarios. -/
def mkSt (N : ℕ) (c : TCache) : TransientState :=
  { limits := [(lruName, some (N : Int))], caches := [(lruName, c)] }

/-- The starting state of the LRU scenarios:
`set_cache_limit('c', N)` on a fresh module. -/
def limitedInit (N : ℕ) : TransientState :=
  set_cache_limit initState lruName (some (N : Int))

theorem ensure_mkSt (N : ℕ) (c : TCache) :
    ensureDefaults (mkSt N c) lruName = mkSt N c := by
  simp [ensureDefaults, mkSt, alFind]

theorem cacheOf_mkSt (N : ℕ) (c : TCache) : cacheOf (mkSt N c) lruName = c := by
  simp [cacheOf, mkSt, alFind]

theorem limitOf_mkSt (N : ℕ) (c : TCache) :
    limitOf (mkSt N c) lruName = some (N : Int) := by
  simp [limitOf, mkSt, alFind]

theorem lruName_ne_none : lruName ≠ PyVal.none := by
  simp [lruName]

/-- An LRU-scenario call on a key not in the cache: the least recently
used entries are evicted down to the limit and the new entry is
appended at the most-recently-used end. -/
theorem lru_call_miss (N : ℕ) (hN : 1 ≤ N) (c : TCache) (k : Int)
    (hfresh : alFind c [PyVal.int k] = Option.none) (hlen : c.length ≤ N) :
    transientCall "c" lruMapper lruFun (mkSt N c) [PyVal.int k] [] =
      Except.ok (PyVal.bool true,
        mkSt N ((c ++ [entryOf k]).drop (c.length + 1 - N)), 1) := by
  have hget : cacheGet (cacheOf (mkSt N c) lruName) [PyVal.int k] = PyVal.none := by
    rw [cacheOf_mkSt]; unfold cacheGet; rw [hfresh]
  have hcall : transientCall "c" lruMapper lruFun (mkSt N c) [PyVal.int k] [] =
      transientCallCore lruName [PyVal.int k] (PyVal.bool true) (mkSt N c) := rfl
  rw [hcall]
  rcases Nat.lt_or_ge c.length N with hlt | hge
  · -- still room: no eviction
    have hshrink : shrinkCache (N : Int) (cacheOf (mkSt N c) lruName) =
        Except.ok c := by
      rw [cacheOf_mkSt]
      exact shrinkCache_of_lt (by exact_mod_cast hlt)
    rw [core_miss lruName _ _ _ (N : Int) c lruName_ne_none hget (limitOf_mkSt N c) hshrink]
    rw [ensure_mkSt]
    have hdrop : c.length + 1 - N = 0 := by omega
    rw [hdrop, List.drop_zero, alSet_of_fresh _ hfresh]
    simp [mkSt, alSet, lruMapper, lruFun, alErase, entryOf]
  · -- the cache is full: the front entry is evicted
    have heq : c.length = N := le_antisymm hlen hge
    have hshrink : shrinkCache (N : Int) (cacheOf (mkSt N c) lruName) =
        Except.ok c.tail := by
      rw [cacheOf_mkSt]
      exact shrinkCache_full hN heq
    have htfresh : alFind c.tail [PyVal.int k] = Option.none := by
      rw [alFind_eq_none_iff] at hfresh ⊢
      intro p hp
      exact hfresh p (List.mem_of_mem_tail hp)
    rw [core_miss lruName _ _ _ (N : Int) c.tail lruName_ne_none hget (limitOf_mkSt N c) hshrink]
    rw [ensure_mkSt]
    have hdrop : c.length + 1 - N = 1 := by omega
    have hone : 1 ≤ c.length := by omega
    rw [hdrop, List.drop_append_of_le_length hone, List.drop_one,
      alSet_of_fresh _ htfresh]
    simp [mkSt, alSet, lruMapper, lruFun, alErase, entryOf]

/-- An LRU-scenario call on a key present in the cache with a
non-`None` value: a hit, which refreshes the entry's recency. -/
theorem lru_call_hit (N : ℕ) (c : TCache) (k : Int) (v : PyVal)
    (hfind : alFind c [PyVal.int k] = some v) (hv : v ≠ PyVal.none) :
    transientCall "c" lruMapper lruFun (mkSt N c) [PyVal.int k] [] =
      Except.ok (v, mkSt N (alErase c [PyVal.int k] ++ [([PyVal.int k], v)]), 0) := by
  have hget : cacheGet (cacheOf (mkSt N c) lruName) [PyVal.int k] = v := by
    rw [cacheOf_mkSt]; unfold cacheGet; rw [hfind]
  have hcall : transientCall "c" lruMapper lruFun (mkSt N c) [PyVal.int k] [] =
      transientCallCore lruName [PyVal.int k] (PyVal.bool true) (mkSt N c) := rfl
  rw [hcall, core_hit lruName _ _ _ v lruName_ne_none hget hv]
  rw [ensure_mkSt]
  have hmove : moveToBack (cacheOf (mkSt N c) lruName) [PyVal.int k] =
      alErase c [PyVal.int k] ++ [([PyVal.int k], v)] := by
    rw [cacheOf_mkSt]
    unfold moveToBack cacheGet
    rw [hfind]
  rw [hmove]
  simp [mkSt, alSet, lruMapper, lruFun, alErase]

/-- The first LRU-scenario call after `set_cache_limit('c', N)`:
the `defaultdict` creates the cache and the entry is inserted. -/
theorem lru_call_first (N : ℕ) (hN : 1 ≤ N) (k : Int) :
    transientCall "c" lruMapper lruFun (limitedInit N) [PyVal.int k] [] =
      Except.ok (PyVal.bool true, mkSt N [entryOf k], 1) := by
  have hget : cacheGet (cacheOf (limitedInit N) lruName) [PyVal.int k] = PyVal.none := by
    simp [cacheOf, limitedInit, set_cache_limit, initState, alSet, alFind, cacheGet]
  have hlim : limitOf (limitedInit N) lruName = some (N : Int) := by
    simp [limitOf, limitedInit, set_cache_limit, initState, alSet, alFind]
  have hshrink : shrinkCache (N : Int) (cacheOf (limitedInit N) lruName) =
      Except.ok [] := by
    have hc : cacheOf (limitedInit N) lruName = [] := by
      simp [cacheOf, limitedInit, set_cache_limit, initState, alSet, alFind]
    rw [hc]
    exact shrinkCache_of_lt (by simpa using by exact_mod_cast hN)
  have hcall : transientCall "c" lruMapper lruFun (limitedInit N) [PyVal.int k] [] =
      transientCallCore lruName [PyVal.int k] (PyVal.bool true) (limitedInit N) := rfl
  rw [hcall, core_miss lruName _ _ _ (N : Int) [] lruName_ne_none hget hlim hshrink]
  simp [ensureDefaults, limitedInit, set_cache_limit, initState, alSet, alFind,
    mkSt, alErase, lruMapper, lruFun, entryOf]

theorem alFind_entryOf_not_mem {l : List Int} {j : Int} (h : j ∉ l) :
    alFind (l.map entryOf) [PyVal.int j] = Option.none := by
  rw [alFind_eq_none_iff]
  intro p hp
  rcases List.mem_map.mp hp with ⟨k, hk, rfl⟩
  simp only [entryOf, ne_eq, List.cons.injEq, PyVal.int.injEq, and_true]
  rintro rfl
  exact h hk

theorem alFind_entryOf_mem {l : List Int} {j : Int} (h : j ∈ l) :
    alFind (l.map entryOf) [PyVal.int j] = some (PyVal.bool true) := by
  induction l with
  | nil => cases h
  | cons k rest ih =>
    by_cases hkj : k = j
    · subst hkj
      simp [entryOf, alFind]
    · have hj : j ∈ rest := by
        rcases List.mem_cons.mp h with h' | h'
        · exact absurd h'.symm hkj
        · exact h'
      simp only [List.map_cons, alFind, entryOf]
      rw [if_neg (by simp [hkj]), ih hj]

/-- Closed form for a run of fresh-key memoized calls: starting from
cache content `c` (within its limit `N`), inserting the distinct keys
`ks` leaves exactly the last `N` entries of `c` followed by the `ks`
entries, in order. -/
theorem insertCalls_mkSt (N : ℕ) (hN : 1 ≤ N) (ks : List Int) :
    ∀ (c : TCache), c.length ≤ N →
      (∀ k ∈ ks, alFind c [PyVal.int k] = Option.none) →
      ks.Nodup →
      insertCalls (mkSt N c) ks =
        Except.ok (mkSt N ((c ++ ks.map entryOf).drop (c.length + ks.length - N))) := by
  induction ks with
  | nil =>
    intro c hlen _ _
    have h0 : c.length - N = 0 := Nat.sub_eq_zero_of_le hlen
    simp [insertCalls, h0]
  | cons k rest ih =>
    intro c hlen hfresh hnd
    simp only [insertCalls]
    rw [lru_call_miss N hN c k (hfresh k (by simp)) hlen]
    have hd₁le : c.length + 1 - N ≤ (c ++ [entryOf k]).length := by
      rw [List.length_append, List.length_cons, List.length_nil]
      omega
    set c₁ := (c ++ [entryOf k]).drop (c.length + 1 - N) with hc₁
    show insertCalls (mkSt N c₁) rest =
      Except.ok (mkSt N ((c ++ (k :: rest).map entryOf).drop
        (c.length + (k :: rest).length - N)))
    have hc₁len : c₁.length = c.length + 1 - (c.length + 1 - N) := by
      rw [hc₁, List.length_drop, List.length_append]
      rfl
    have hlen₁ : c₁.length ≤ N := by omega
    have hfresh₁ : ∀ j ∈ rest, alFind c₁ [PyVal.int j] = Option.none := by
      intro j hj
      rw [alFind_eq_none_iff]
      intro p hp
      have hp' : p ∈ c ++ [entryOf k] := List.mem_of_mem_drop (hc₁ ▸ hp)
      rcases List.mem_append.mp hp' with hcmem | hemem
      · exact (alFind_eq_none_iff c [PyVal.int j]).mp
          (hfresh j (List.mem_cons_of_mem _ hj)) p hcmem
      · have hpk : p = entryOf k := by simpa using hemem
        subst hpk
        simp only [entryOf, ne_eq, List.cons.injEq, PyVal.int.injEq, and_true]
        rintro rfl
        exact (List.nodup_cons.mp hnd).1 hj
    rw [ih c₁ hlen₁ hfresh₁ (List.nodup_cons.mp hnd).2]
    have h1 : c₁ ++ rest.map entryOf =
        ((c ++ [entryOf k]) ++ rest.map entryOf).drop (c.length + 1 - N) := by
      rw [List.drop_append_of_le_length hd₁le]
    rw [h1, List.drop_drop]
    have h2 : (c ++ [entryOf k]) ++ rest.map entryOf =
        c ++ (k :: rest).map entryOf := by
      simp
    rw [h2]
    congr 3
    simp only [List.length_cons]
    omega

theorem alErase_cons_of_eq {α β : Type} [DecidableEq α] {p : α × β}
    {ps : List (α × β)} {k : α} (h : p.1 = k) :
    alErase (p :: ps) k = alErase ps k := by
  show (if p.1 = k then alErase ps k else p :: alErase ps k) = alErase ps k
  rw [if_pos h]

/-- A run of memoized calls from the configured start state
`set_cache_limit('c', N)`: the final cache holds the last `N` keys. -/
theorem insertCalls_start (N : ℕ) (hN : 1 ≤ N) (k : Int) (rest : List Int)
    (hnd : (k :: rest).Nodup) :
    insertCalls (limitedInit N) (k :: rest) =
      Except.ok (mkSt N (((k :: rest).map entryOf).drop (rest.length + 1 - N))) := by
  simp only [insertCalls]
  rw [lru_call_first N hN k]
  show insertCalls (mkSt N [entryOf k]) rest = _
  have hfresh : ∀ j ∈ rest, alFind [entryOf k] [PyVal.int j] = Option.none := by
    intro j hj
    rw [alFind_eq_none_iff]
    intro p hp
    have hpk : p = entryOf k := by simpa using hp
    subst hpk
    simp only [entryOf, ne_eq, List.cons.injEq, PyVal.int.injEq, and_true]
    rintro rfl
    exact (List.nodup_cons.mp hnd).1 hj
  rw [insertCalls_mkSt N hN rest [entryOf k] (by simpa using hN) hfresh
    (List.nodup_cons.mp hnd).2]
  congr 2
  rw [List.map_cons]
  show (entryOf k :: rest.map entryOf).drop (1 + rest.length - N) = _
  congr 1
  omega

/-- C2: for a transient cache with capacity limit `N`, inserting `N + 1`
distinct keys via memoized calls with no intervening reads leaves the
first-inserted key absent and the other `N` keys all present; and
concretely, with capacity 2, inserting A(=0), B(=1), C(=2) in order
leaves A absent with B and C present, and inserting A again then evicts
B (the least-recently-used), leaving A and C present. -/
theorem transient_lru_invariant :
    (∀ (N : ℕ) (k : Int) (rest : List Int),
      1 ≤ N → rest.length = N → (k :: rest).Nodup →
      insertCalls (limitedInit N) (k :: rest) =
          Except.ok (mkSt N (rest.map entryOf)) ∧
        alFind (rest.map entryOf) [PyVal.int k] = Option.none ∧
        ∀ j ∈ rest, alFind (rest.map entryOf) [PyVal.int j] =
          some (PyVal.bool true)) ∧
    (insertCalls (limitedInit 2) [0, 1, 2] =
        Except.ok (mkSt 2 [entryOf 1, entryOf 2]) ∧
      alFind [entryOf 1, entryOf 2] [PyVal.int 0] = Option.none ∧
      insertCalls (mkSt 2 [entryOf 1, entryOf 2]) [0] =
        Except.ok (mkSt 2 [entryOf 2, entryOf 0]) ∧
      alFind [entryOf 2, entryOf 0] [PyVal.int 1] = Option.none ∧
      alFind [entryOf 2, entryOf 0] [PyVal.int 0] = some (PyVal.bool true) ∧
      alFind [entryOf 2, entryOf 0] [PyVal.int 2] = some (PyVal.bool true)) := by
  constructor
  · intro N k rest hN hlen hnd
    have h1 := insertCalls_start N hN k rest hnd
    have hd : rest.length + 1 - N = 1 := by omega
    rw [hd] at h1
    have h2 : ((k :: rest).map entryOf).drop 1 = rest.map entryOf := by simp
    rw [h2] at h1
    exact ⟨h1, alFind_entryOf_not_mem (List.nodup_cons.mp hnd).1,
      fun j hj => alFind_entryOf_mem hj⟩
  · exact ⟨by decide, by decide, by decide, by decide, by decide, by decide⟩

/-- Witness for the LRU invariant: capacity 2, memoized calls with
keys 10, 11, 12. -/
theorem transient_lru_invariant_witness :
    insertCalls (limitedInit 2) [10, 11, 12] =
        Except.ok (mkSt 2 ([11, 12].map entryOf)) ∧
      alFind ([11, 12].map entryOf) [PyVal.int 10] = Option.none ∧
      ∀ j ∈ [(11 : Int), 12], alFind ([11, 12].map entryOf) [PyVal.int j] =
        some (PyVal.bool true) :=
  transient_lru_invariant.1 2 10 [11, 12] (by decide) (by decide) (by decide)

/-- C7: for a transient cache at capacity `N` holding keys
`k₁ :: k₂ :: rest` (inserted in that order), a memoized read of `k₁` is
a hit that refreshes its recency, so a subsequent insertion of a fresh
key `knew` evicts `k₂` — the now-least-recently-used — and not `k₁`:
in the final cache `k₁` and `knew` are present and `k₂` is absent. -/
theorem transient_recency_refresh (k₁ k₂ : Int) (rest : List Int) (knew : Int)
    (hnd : (k₁ :: k₂ :: rest).Nodup) (hknew : knew ∉ k₁ :: k₂ :: rest) :
    insertCalls (limitedInit (rest.length + 2)) (k₁ :: k₂ :: rest) =
      Except.ok (mkSt (rest.length + 2) ((k₁ :: k₂ :: rest).map entryOf)) ∧
    transientCall "c" lruMapper lruFun
        (mkSt (rest.length + 2) ((k₁ :: k₂ :: rest).map entryOf))
        [PyVal.int k₁] [] =
      Except.ok (PyVal.bool true,
        mkSt (rest.length + 2) (((k₂ :: rest) ++ [k₁]).map entryOf), 0) ∧
    transientCall "c" lruMapper lruFun
        (mkSt (rest.length + 2) (((k₂ :: rest) ++ [k₁]).map entryOf))
        [PyVal.int knew] [] =
      Except.ok (PyVal.bool true,
        mkSt (rest.length + 2) ((rest ++ [k₁, knew]).map entryOf), 1) ∧
    alFind ((rest ++ [k₁, knew]).map entryOf) [PyVal.int k₁] =
      some (PyVal.bool true) ∧
    alFind ((rest ++ [k₁, knew]).map entryOf) [PyVal.int k₂] = Option.none ∧
    alFind ((rest ++ [k₁, knew]).map entryOf) [PyVal.int knew] =
      some (PyVal.bool true) := by
  have hk₁k₂ : k₁ ≠ k₂ := by
    intro h
    exact (List.nodup_cons.mp hnd).1 (h ▸ List.mem_cons_self k₂ rest)
  have hk₁rest : k₁ ∉ rest := fun h =>
    (List.nodup_cons.mp hnd).1 (List.mem_cons_of_mem _ h)
  have hk₂rest : k₂ ∉ rest := (List.nodup_cons.mp (List.nodup_cons.mp hnd).2).1
  refine ⟨?_, ?_, ?_, ?_, ?_, ?_⟩
  · have h1 := insertCalls_start (rest.length + 2) (by omega) k₁ (k₂ :: rest) hnd
    have hd : (k₂ :: rest).length + 1 - (rest.length + 2) = 0 := by
      simp only [List.length_cons]
      omega
    rw [hd, List.drop_zero] at h1
    exact h1
  · have hfind : alFind ((k₁ :: k₂ :: rest).map entryOf) [PyVal.int k₁] =
        some (PyVal.bool true) := alFind_entryOf_mem (by simp)
    rw [lru_call_hit (rest.length + 2) _ k₁ (PyVal.bool true) hfind (by simp)]
    have hk₁fresh : alFind ((k₂ :: rest).map entryOf) [PyVal.int k₁] =
        Option.none := alFind_entryOf_not_mem (by simp [hk₁k₂, hk₁rest])
    have hstate : alErase ((k₁ :: k₂ :: rest).map entryOf) [PyVal.int k₁] ++
        [([PyVal.int k₁], PyVal.bool true)] = ((k₂ :: rest) ++ [k₁]).map entryOf := by
      rw [List.map_cons, alErase_cons_of_eq (show (entryOf k₁).1 = [PyVal.int k₁] from rfl),
        alErase_of_fresh hk₁fresh, List.map_append]
      rfl
    rw [hstate]
  · have hknewfresh : alFind (((k₂ :: rest) ++ [k₁]).map entryOf) [PyVal.int knew] =
        Option.none := by
      refine alFind_entryOf_not_mem ?_
      intro h
      rcases List.mem_append.mp h with h | h
      · exact hknew (List.mem_cons_of_mem _ h)
      · have : knew = k₁ := by simpa using h
        exact hknew (this ▸ List.mem_cons_self k₁ (k₂ :: rest))
    have hlen : (((k₂ :: rest) ++ [k₁]).map entryOf).length ≤ rest.length + 2 := by
      simp
    rw [lru_call_miss (rest.length + 2) (by omega) _ knew hknewfresh hlen]
    have hlen' : (((k₂ :: rest) ++ [k₁]).map entryOf).length = rest.length + 2 := by
      simp
    have hstate : ((((k₂ :: rest) ++ [k₁]).map entryOf) ++ [entryOf knew]).drop
        ((((k₂ :: rest) ++ [k₁]).map entryOf).length + 1 - (rest.length + 2)) =
        (rest ++ [k₁, knew]).map entryOf := by
      rw [hlen']
      have hone : rest.length + 2 + 1 - (rest.length + 2) = 1 := by omega
      rw [hone]
      simp [List.map_append]
    rw [hstate]
  · exact alFind_entryOf_mem (by simp)
  · refine alFind_entryOf_not_mem ?_
    intro h
    rcases List.mem_append.mp h with h | h
    · exact hk₂rest h
    · rcases List.mem_cons.mp h with h | h
      · exact hk₁k₂ h.symm
      · have : k₂ = knew := by simpa using h
        exact hknew (this ▸ List.mem_cons_of_mem _ (List.mem_cons_self k₂ rest))
  · exact alFind_entryOf_mem (by simp)

/-- Witness for the recency refresh: capacity 2 with keys 0, 1, then a
read of 0 and an insertion of 7, which evicts 1. -/
theorem transient_recency_refresh_witness :
    insertCalls (limitedInit 2) [0, 1] =
      Except.ok (mkSt 2 ([0, 1].map entryOf)) ∧
    transientCall "c" lruMapper lruFun (mkSt 2 ([0, 1].map entryOf))
        [PyVal.int 0] [] =
      Except.ok (PyVal.bool true, mkSt 2 (([1] ++ [0]).map entryOf), 0) ∧
    transientCall "c" lruMapper lruFun (mkSt 2 (([1] ++ [0]).map entryOf))
        [PyVal.int 7] [] =
      Except.ok (PyVal.bool true, mkSt 2 (([] ++ [0, 7]).map entryOf), 1) ∧
    alFind (([] ++ [0, 7]).map entryOf) [PyVal.int 0] = some (PyVal.bool true) ∧
    alFind (([] ++ [0, 7]).map entryOf) [PyVal.int 1] = Option.none ∧
    alFind (([] ++ [0, 7]).map entryOf) [PyVal.int 7] = some (PyVal.bool true) :=
  transient_recency_refresh 0 1 [] 7 (by decide) (by decide)

/-! ## Step lemmas for the persistent wrapper -/

theorem pystr_ne_none (s : String) : PyVal.str s ≠ PyVal.none := by
  intro h
  cases h

theorem pcore_disabled {S : Type} (name : String) (akey : CacheKey)
    (fv : PyVal) (store : S) :
    persistentCallCore name (KwVal.py PyVal.none) akey fv store =
      Except.ok (fv, store, 1) := rfl

theorem pcore_miss {S : Type} (name : String) (B : PBackend S)
    (akey : CacheKey) (fv : PyVal) (store : S)
    (hmiss : B.get store (B.key name akey) = PyVal.none) :
    persistentCallCore name (KwVal.backend B) akey fv store =
      Except.ok (fv, B.set store (B.key name akey) fv, 1) := by
  unfold persistentCallCore
  simp only [hmiss]
  simp

theorem pcore_hit {S : Type} (name : String) (B : PBackend S)
    (akey : CacheKey) (fv : PyVal) (store : S) (v : PyVal)
    (hhit : B.get store (B.key name akey) = v) (hv : v ≠ PyVal.none) :
    persistentCallCore name (KwVal.backend B) akey fv store =
      Except.ok (v, store, 0) := by
  unfold persistentCallCore
  simp only [hhit]
  rw [if_pos hv]

/-! ## C1: the idempotent-hit property -/

/-- C1 (counterexample): the claim fails when the underlying
computation returns `None`.  A transiently memoized function returning
`None`, called twice with identical (empty) mapped arguments from a
fresh module state, runs the computation on both calls (one invocation
per call, two in total), because the hit test `result is not None`
never accepts the stored `None`. -/
theorem idempotent_hit_counterexample :
    transientCall "g" (fun _ _ => []) (fun _ _ => PyVal.none) initState [] [] =
      Except.ok (PyVal.none,
        { limits := [(PyVal.str "g", some 5)],
          caches := [(PyVal.str "g", [([], PyVal.none)])] }, 1) ∧
    transientCall "g" (fun _ _ => []) (fun _ _ => PyVal.none)
        { limits := [(PyVal.str "g", some 5)],
          caches := [(PyVal.str "g", [([], PyVal.none)])] } [] [] =
      Except.ok (PyVal.none,
        { limits := [(PyVal.str "g", some 5)],
          caches := [(PyVal.str "g", [([], PyVal.none)])] }, 1) :=
  ⟨by decide, by decide⟩

/-- C1 (amended): calling a memoized function twice with identical
mapped arguments invokes the underlying computation exactly once (on
the first call) and the second call returns the first call's value,
provided the computation's result is not `None`; for the transient
decorator additionally the call must use an enabled cache (no `cache`
keyword override), the key must not be cached yet and the configured
limit must be positive or unlimited, and for the persistent decorator
an active backend satisfying the get-after-set round trip must see an
initial miss. -/
theorem idempotent_hit_amended :
    (∀ (name : String)
       (mapper : List PyVal → List (String × PyVal) → CacheKey)
       (f : List PyVal → List (String × PyVal) → PyVal)
       (st : TransientState) (args : List PyVal)
       (kwargs : List (String × PyVal)),
      alFind kwargs "cache" = Option.none →
      cacheGet (cacheOf st (PyVal.str name))
        (mapper args (alErase kwargs "cache")) = PyVal.none →
      (∀ l, limitOf st (PyVal.str name) = some l → 1 ≤ l) →
      f args (alErase kwargs "cache") ≠ PyVal.none →
      ∃ st₁ st₂,
        transientCall name mapper f st args kwargs =
          Except.ok (f args (alErase kwargs "cache"), st₁, 1) ∧
        transientCall name mapper f st₁ args kwargs =
          Except.ok (f args (alErase kwargs "cache"), st₂, 0)) ∧
    (∀ (S : Type) (B : PBackend S) (store : S) (name : String)
       (mapper : List PyVal → List (String × KwVal S) → CacheKey)
       (f : List PyVal → List (String × KwVal S) → PyVal)
       (args : List PyVal) (kwargs : List (String × KwVal S)),
      alFind kwargs "cache" = Option.none →
      (∀ s k v, B.get (B.set s k v) k = v) →
      B.get store (B.key name (mapper args (alErase kwargs "cache"))) =
        PyVal.none →
      f args (alErase kwargs "cache") ≠ PyVal.none →
      persistentCall name mapper f (some B) store args kwargs =
        Except.ok (f args (alErase kwargs "cache"),
          B.set store (B.key name (mapper args (alErase kwargs "cache")))
            (f args (alErase kwargs "cache")), 1) ∧
      persistentCall name mapper f (some B)
          (B.set store (B.key name (mapper args (alErase kwargs "cache")))
            (f args (alErase kwargs "cache"))) args kwargs =
        Except.ok (f args (alErase kwargs "cache"),
          B.set store (B.key name (mapper args (alErase kwargs "cache")))
            (f args (alErase kwargs "cache")), 0)) := by
  constructor
  · intro name mapper f st args kwargs hkw hmiss hlimit hres
    set cn := PyVal.str name with hcn
    set key := mapper args (alErase kwargs "cache") with hkey
    set fv := f args (alErase kwargs "cache") with hfv
    have hcall : ∀ s, transientCall name mapper f s args kwargs =
        transientCallCore cn key fv s := by
      intro s
      rw [transientCall_eq, hkw]
    have hcnne : cn ≠ PyVal.none := pystr_ne_none name
    -- the first call misses and stores the computed value
    have hstep1 : ∃ st₁, transientCall name mapper f st args kwargs =
        Except.ok (fv, st₁, 1) ∧ cacheGet (cacheOf st₁ cn) key = fv := by
      cases hlim : limitOf st cn with
      | none =>
        refine ⟨_, by rw [hcall, core_miss_unlimited cn key fv st hcnne hmiss hlim], ?_⟩
        rw [show cacheOf { ensureDefaults st cn with
            caches := alSet (ensureDefaults st cn).caches cn
              (alSet (cacheOf st cn) key fv) } cn =
            alSet (cacheOf st cn) key fv from cacheOf_write _ cn _]
        unfold cacheGet
        rw [alFind_alSet_self]
      | some l =>
        have hl : 1 ≤ l := hlimit l hlim
        obtain ⟨c', hc'⟩ := shrinkCache_ok_of_pos hl (cacheOf st cn)
        refine ⟨_, by rw [hcall, core_miss cn key fv st l c' hcnne hmiss hlim hc'], ?_⟩
        rw [show cacheOf { ensureDefaults st cn with
            caches := alSet (ensureDefaults st cn).caches cn
              (alSet c' key fv) } cn = alSet c' key fv from cacheOf_write _ cn _]
        unfold cacheGet
        rw [alFind_alSet_self]
    obtain ⟨st₁, hfirst, hst₁⟩ := hstep1
    refine ⟨st₁, { ensureDefaults st₁ cn with
      caches := alSet (ensureDefaults st₁ cn).caches cn
        (moveToBack (cacheOf st₁ cn) key) }, hfirst, ?_⟩
    rw [hcall, core_hit cn key fv st₁ fv hcnne hst₁ hres]
  · intro S B store name mapper f args kwargs hkw hround hmiss hres
    set akey := mapper args (alErase kwargs "cache") with hakey
    set fv := f args (alErase kwargs "cache") with hfv
    have hcall : ∀ s, persistentCall name mapper f (some B) s args kwargs =
        persistentCallCore name (KwVal.backend B) akey fv s := by
      intro s
      unfold persistentCall
      rw [hkw]
    constructor
    · rw [hcall, pcore_miss name B akey fv store hmiss]
    · rw [hcall, pcore_hit name B akey fv _ fv (hround store (B.key name akey) fv) hres]

/-- A concrete backend over an in-memory association list, used to
instantiate the persistent-wrapper theorems. -/
def listBackend : PBackend (List (String × PyVal)) :=
  { key := fun n ak => n ++ "(" ++ String.intercalate ", " (ak.map pyRepr) ++ ")"
    get := fun s k =>
      match alFind s k with
      | some v => v
      | Option.none => PyVal.none
    set := fun s k v => (k, v) :: alErase s k }

theorem listBackend_roundtrip :
    ∀ (s : List (String × PyVal)) (k : String) (v : PyVal),
      listBackend.get (listBackend.set s k v) k = v := by
  intro s k v
  simp [listBackend, alFind]

/-- Witness for the amended idempotent-hit property: a transient call
pair on key `(1)` with result 9, and a persistent call pair against
`listBackend` with result 3. -/
theorem idempotent_hit_amended_witness :
    (∃ st₁ st₂,
      transientCall "w1" (fun a _ => a) (fun _ _ => PyVal.int 9) initState
          [PyVal.int 1] [] =
        Except.ok (PyVal.int 9, st₁, 1) ∧
      transientCall "w1" (fun a _ => a) (fun _ _ => PyVal.int 9) st₁
          [PyVal.int 1] [] =
        Except.ok (PyVal.int 9, st₂, 0)) ∧
    (persistentCall "w2" (fun a _ => a) (fun _ _ => PyVal.int 3)
        (some listBackend) [] [PyVal.int 1] [] =
      Except.ok (PyVal.int 3,
        listBackend.set [] (listBackend.key "w2" [PyVal.int 1]) (PyVal.int 3),
        1) ∧
    persistentCall "w2" (fun a _ => a) (fun _ _ => PyVal.int 3)
        (some listBackend)
        (listBackend.set [] (listBackend.key "w2" [PyVal.int 1]) (PyVal.int 3))
        [PyVal.int 1] [] =
      Except.ok (PyVal.int 3,
        listBackend.set [] (listBackend.key "w2" [PyVal.int 1]) (PyVal.int 3),
        0)) :=
  ⟨idempotent_hit_amended.1 "w1" (fun a _ => a) (fun _ _ => PyVal.int 9)
      initState [PyVal.int 1] [] rfl rfl
      (by intro l hl; simp [limitOf, initState, alFind] at hl; omega)
      (by decide),
    idempotent_hit_amended.2 _ listBackend [] "w2" (fun a _ => a)
      (fun _ _ => PyVal.int 3) [PyVal.int 1] [] rfl listBackend_roundtrip
      rfl (by decide)⟩

/-- A memoized transient call whose hit test fails (the stored value at
the key is absent or `None`) runs the wrapped computation once and
stores its value, leaving the limits unchanged. -/
theorem transient_miss_step (name : String)
    (mapper : List PyVal → List (String × PyVal) → CacheKey)
    (f : List PyVal → List (String × PyVal) → PyVal)
    (st : TransientState) (args : List PyVal)
    (kwargs : List (String × PyVal))
    (hkw : alFind kwargs "cache" = Option.none)
    (hget : cacheGet (cacheOf st (PyVal.str name))
      (mapper args (alErase kwargs "cache")) = PyVal.none)
    (hlimit : ∀ l, limitOf st (PyVal.str name) = some l → 1 ≤ l) :
    ∃ st₁, transientCall name mapper f st args kwargs =
        Except.ok (f args (alErase kwargs "cache"), st₁, 1) ∧
      cacheGet (cacheOf st₁ (PyVal.str name))
        (mapper args (alErase kwargs "cache")) =
          f args (alErase kwargs "cache") ∧
      limitOf st₁ (PyVal.str name) = limitOf st (PyVal.str name) := by
  set cn := PyVal.str name with hcn
  set key := mapper args (alErase kwargs "cache") with hkey
  set fv := f args (alErase kwargs "cache") with hfv
  have hcall : transientCall name mapper f st args kwargs =
      transientCallCore cn key fv st := by
    rw [transientCall_eq, hkw]
  have hcnne : cn ≠ PyVal.none := pystr_ne_none name
  have hlimpres : ∀ X : TCache,
      limitOf { ensureDefaults st cn with
        caches := alSet (ensureDefaults st cn).caches cn X } cn =
        limitOf st cn :=
    fun _ => limitOf_ensure st cn
  cases hlim : limitOf st cn with
  | none =>
    refine ⟨_, by rw [hcall, core_miss_unlimited cn key fv st hcnne hget hlim], ?_, ?_⟩
    · rw [show cacheOf { ensureDefaults st cn with
          caches := alSet (ensureDefaults st cn).caches cn
            (alSet (cacheOf st cn) key fv) } cn =
          alSet (cacheOf st cn) key fv from cacheOf_write _ cn _]
      unfold cacheGet
      rw [alFind_alSet_self]
    · exact (hlimpres _).trans hlim
  | some l =>
    have hl : 1 ≤ l := hlimit l hlim
    obtain ⟨c', hc'⟩ := shrinkCache_ok_of_pos hl (cacheOf st cn)
    refine ⟨_, by rw [hcall, core_miss cn key fv st l c' hcnne hget hlim hc'], ?_, ?_⟩
    · rw [show cacheOf { ensureDefaults st cn with
          caches := alSet (ensureDefaults st cn).caches cn
            (alSet c' key fv) } cn = alSet c' key fv from cacheOf_write _ cn _]
      unfold cacheGet
      rw [alFind_alSet_self]
    · exact (hlimpres _).trans hlim

/-- C9: a stored cached value of `None` is never recognized as a hit.
If the underlying function's result for the mapped-argument key is
`None`, each call — including the call after the value was stored —
re-executes the underlying computation (one invocation per call), for
both the transient and the persistent wrapper. -/
theorem none_result_reexecutes :
    (∀ (name : String)
       (mapper : List PyVal → List (String × PyVal) → CacheKey)
       (f : List PyVal → List (String × PyVal) → PyVal)
       (st : TransientState) (args : List PyVal)
       (kwargs : List (String × PyVal)),
      alFind kwargs "cache" = Option.none →
      cacheGet (cacheOf st (PyVal.str name))
        (mapper args (alErase kwargs "cache")) = PyVal.none →
      (∀ l, limitOf st (PyVal.str name) = some l → 1 ≤ l) →
      f args (alErase kwargs "cache") = PyVal.none →
      ∃ st₁ st₂,
        transientCall name mapper f st args kwargs =
          Except.ok (PyVal.none, st₁, 1) ∧
        transientCall name mapper f st₁ args kwargs =
          Except.ok (PyVal.none, st₂, 1)) ∧
    (∀ (S : Type) (B : PBackend S) (store : S) (name : String)
       (mapper : List PyVal → List (String × KwVal S) → CacheKey)
       (f : List PyVal → List (String × KwVal S) → PyVal)
       (args : List PyVal) (kwargs : List (String × KwVal S)),
      alFind kwargs "cache" = Option.none →
      (∀ s k, B.get (B.set s k PyVal.none) k = PyVal.none) →
      B.get store (B.key name (mapper args (alErase kwargs "cache"))) =
        PyVal.none →
      f args (alErase kwargs "cache") = PyVal.none →
      persistentCall name mapper f (some B) store args kwargs =
        Except.ok (PyVal.none,
          B.set store (B.key name (mapper args (alErase kwargs "cache")))
            PyVal.none, 1) ∧
      persistentCall name mapper f (some B)
          (B.set store (B.key name (mapper args (alErase kwargs "cache")))
            PyVal.none) args kwargs =
        Except.ok (PyVal.none,
          B.set
            (B.set store (B.key name (mapper args (alErase kwargs "cache")))
              PyVal.none)
            (B.key name (mapper args (alErase kwargs "cache")))
            PyVal.none, 1)) := by
  constructor
  · intro name mapper f st args kwargs hkw hget hlimit hf
    obtain ⟨st₁, h1, hget₁, hlim₁⟩ :=
      transient_miss_step name mapper f st args kwargs hkw hget hlimit
    rw [hf] at h1 hget₁
    obtain ⟨st₂, h2, _, _⟩ :=
      transient_miss_step name mapper f st₁ args kwargs hkw hget₁
        (by rw [hlim₁]; exact hlimit)
    rw [hf] at h2
    exact ⟨st₁, st₂, h1, h2⟩
  · intro S B store name mapper f args kwargs hkw hsetnone hmiss hf
    set akey := mapper args (alErase kwargs "cache") with hakey
    have hcall : ∀ s, persistentCall name mapper f (some B) s args kwargs =
        persistentCallCore name (KwVal.backend B)
          akey (f args (alErase kwargs "cache")) s := by
      intro s
      unfold persistentCall
      rw [hkw]
    constructor
    · rw [hcall, pcore_miss name B akey _ store hmiss, hf]
    · rw [hcall, pcore_miss name B akey _ _
        (hsetnone store (B.key name akey)), hf]

/-- Witness for the `None`-result re-execution: a transient pair of
calls and a persistent pair of calls, each invoking the computation
again on the second call. -/
theorem none_result_reexecutes_witness :
    (∃ st₁ st₂,
      transientCall "w3" (fun a _ => a) (fun _ _ => PyVal.none) initState
          [] [] =
        Except.ok (PyVal.none, st₁, 1) ∧
      transientCall "w3" (fun a _ => a) (fun _ _ => PyVal.none) st₁ [] [] =
        Except.ok (PyVal.none, st₂, 1)) ∧
    (persistentCall "w4" (fun a _ => a) (fun _ _ => PyVal.none)
        (some listBackend) [] [] [] =
      Except.ok (PyVal.none,
        listBackend.set [] (listBackend.key "w4" []) PyVal.none, 1) ∧
    persistentCall "w4" (fun a _ => a) (fun _ _ => PyVal.none)
        (some listBackend)
        (listBackend.set [] (listBackend.key "w4" []) PyVal.none) [] [] =
      Except.ok (PyVal.none,
        listBackend.set
          (listBackend.set [] (listBackend.key "w4" []) PyVal.none)
          (listBackend.key "w4" []) PyVal.none, 1)) :=
  ⟨none_result_reexecutes.1 "w3" (fun a _ => a) (fun _ _ => PyVal.none)
      initState [] [] rfl rfl
      (by intro l hl; simp [limitOf, initState, alFind] at hl; omega) rfl,
    none_result_reexecutes.2 _ listBackend [] "w4" (fun a _ => a)
      (fun _ _ => PyVal.none) [] [] rfl
      (fun s k => listBackend_roundtrip s k PyVal.none) rfl rfl⟩

/-! ## C6: cache bypass -/

/-- `persistentCall` reduced to its core on resolved inputs. -/
theorem persistentCall_eq {S : Type} (name : String)
    (mapper : List PyVal → List (String × KwVal S) → CacheKey)
    (f : List PyVal → List (String × KwVal S) → PyVal)
    (globalCache : Option (PBackend S)) (store : S)
    (args : List PyVal) (kwargs : List (String × KwVal S)) :
    persistentCall name mapper f globalCache store args kwargs =
      persistentCallCore name
        (match alFind kwargs "cache" with
         | some v => v
         | Option.none =>
           match globalCache with
           | some b => KwVal.backend b
           | Option.none => KwVal.py PyVal.none)
        (mapper args (alErase kwargs "cache"))
        (f args (alErase kwargs "cache")) store := rfl

/-- C6: with caching disabled — for the transient decorator a `cache`
keyword argument of `None`, for the persistent decorator either an
explicit `cache=None` or no backend passed and none set globally — a
memoized call always runs the wrapped computation (exactly one
invocation), returns its value unchanged, and touches no cache
storage: the module/backend state comes back exactly as it was, for
every such state. -/
theorem cache_bypass_correct :
    (∀ (name : String)
       (mapper : List PyVal → List (String × PyVal) → CacheKey)
       (f : List PyVal → List (String × PyVal) → PyVal)
       (st : TransientState) (args : List PyVal)
       (kwargs : List (String × PyVal)),
      alFind kwargs "cache" = some PyVal.none →
      transientCall name mapper f st args kwargs =
        Except.ok (f args (alErase kwargs "cache"), st, 1)) ∧
    (∀ (S : Type) (globalCache : Option (PBackend S)) (store : S)
       (name : String)
       (mapper : List PyVal → List (String × KwVal S) → CacheKey)
       (f : List PyVal → List (String × KwVal S) → PyVal)
       (args : List PyVal) (kwargs : List (String × KwVal S)),
      alFind kwargs "cache" = some (KwVal.py PyVal.none) ∨
        (alFind kwargs "cache" = Option.none ∧ globalCache = Option.none) →
      persistentCall name mapper f globalCache store args kwargs =
        Except.ok (f args (alErase kwargs "cache"), store, 1)) := by
  constructor
  · intro name mapper f st args kwargs hkw
    rw [transientCall_eq, hkw]
    exact core_disabled _ _ st
  · intro S globalCache store name mapper f args kwargs hdis
    rw [persistentCall_eq]
    rcases hdis with hkw | ⟨hkw, hg⟩
    · rw [hkw]
      exact pcore_disabled name _ _ store
    · rw [hkw, hg]
      exact pcore_disabled name _ _ store

/-- Witness for cache bypass: a transient call with `cache=None` over a
non-trivial module state, and a persistent call with no backend at all. -/
theorem cache_bypass_correct_witness :
    transientCall "w5" (fun a _ => a) (fun _ _ => PyVal.int 4)
        (mkSt 1 [entryOf 5]) [PyVal.int 5] [("cache", PyVal.none)] =
      Except.ok (PyVal.int 4, mkSt 1 [entryOf 5], 1) ∧
    persistentCall "w5" (fun a _ => a) (fun _ _ => PyVal.int 4)
        (Option.none : Option (PBackend (List (String × PyVal))))
        [("k", PyVal.int 8)] [PyVal.int 5] [] =
      Except.ok (PyVal.int 4, [("k", PyVal.int 8)], 1) :=
  ⟨cache_bypass_correct.1 "w5" (fun a _ => a) (fun _ _ => PyVal.int 4)
      (mkSt 1 [entryOf 5]) [PyVal.int 5] [("cache", PyVal.none)] rfl,
    cache_bypass_correct.2 _ Option.none [("k", PyVal.int 8)] "w5"
      (fun a _ => a) (fun _ _ => PyVal.int 4) [PyVal.int 5] []
      (Or.inr ⟨rfl, rfl⟩)⟩

/-! ## C5: capacity configuration -/

theorem alFind_alSet_ne {α β : Type} [DecidableEq α]
    (l : List (α × β)) (k k' : α) (v : β) (h : k' ≠ k) :
    alFind (alSet l k v) k' = alFind l k' := by
  have hk : ¬ (k = k') := fun hc => h hc.symm
  induction l with
  | nil => simp [alSet, alFind, hk]
  | cons p ps ih =>
    by_cases hp : p.1 = k
    · simp only [alSet, if_pos hp, alFind, hp, if_neg hk]
    · simp only [alSet, if_neg hp, alFind, ih]

/-- C5 (counterexample): `set_cache_limit('c5', 0)` completes normally
and stores the limit 0 — a capacity value less than 1 is accepted at
configuration time, not rejected. -/
theorem set_cache_limit_counterexample :
    set_cache_limit initState (PyVal.str "c5") (some 0) =
      { limits := [(PyVal.str "c5", some 0)], caches := [] } ∧
    limitOf (set_cache_limit initState (PyVal.str "c5") (some 0))
      (PyVal.str "c5") = some 0 :=
  ⟨by decide, by decide⟩

/-- C5 (amended): `set_cache_limit` performs no validation: any limit
value, including values less than 1, is stored as given (leaving other
caches' limits unchanged) and the call completes normally; the invalid
value only causes a failure later, at the first memoized call that
misses under a limit `≤ 0` — evicting from the emptied cache then
raises `KeyError`. -/
theorem set_cache_limit_no_validation :
    (∀ (st : TransientState) (name : PyVal) (limit : Option Int),
      limitOf (set_cache_limit st name limit) name = limit) ∧
    (∀ (st : TransientState) (name : PyVal) (limit : Option Int)
       (other : PyVal), other ≠ name →
      limitOf (set_cache_limit st name limit) other = limitOf st other) ∧
    (∀ (name : String)
       (mapper : List PyVal → List (String × PyVal) → CacheKey)
       (f : List PyVal → List (String × PyVal) → PyVal)
       (st : TransientState) (args : List PyVal)
       (kwargs : List (String × PyVal)) (l : Int),
      alFind kwargs "cache" = Option.none →
      limitOf st (PyVal.str name) = some l → l ≤ 0 →
      cacheGet (cacheOf st (PyVal.str name))
        (mapper args (alErase kwargs "cache")) = PyVal.none →
      transientCall name mapper f st args kwargs = Except.error ()) := by
  refine ⟨?_, ?_, ?_⟩
  · intro st name limit
    unfold limitOf set_cache_limit
    rw [alFind_alSet_self]
  · intro st name limit other hne
    unfold limitOf set_cache_limit
    rw [alFind_alSet_ne _ _ _ _ hne]
  · intro name mapper f st args kwargs l hkw hlim hl hget
    rw [transientCall_eq, hkw]
    exact core_miss_err _ _ _ st l (pystr_ne_none name) hget hlim
      (shrinkCache_err hl _)

/-- Witness for the configuration behavior: limit 0 is stored for
`'c5w'`, another cache's limit is unaffected, and the next missing
memoized call under limit 0 raises. -/
theorem set_cache_limit_no_validation_witness :
    limitOf (set_cache_limit initState (PyVal.str "c5w") (some 0))
      (PyVal.str "c5w") = some 0 ∧
    limitOf (set_cache_limit initState (PyVal.str "c5w") (some 0))
      (PyVal.str "other") = limitOf initState (PyVal.str "other") ∧
    transientCall "c5w" (fun a _ => a) (fun _ _ => PyVal.int 1)
        (set_cache_limit initState (PyVal.str "c5w") (some 0)) [] [] =
      Except.error () :=
  ⟨set_cache_limit_no_validation.1 initState (PyVal.str "c5w") (some 0),
    set_cache_limit_no_validation.2.1 initState (PyVal.str "c5w") (some 0)
      (PyVal.str "other") (by decide),
    set_cache_limit_no_validation.2.2 "c5w" (fun a _ => a)
      (fun _ _ => PyVal.int 1)
      (set_cache_limit initState (PyVal.str "c5w") (some 0)) [] [] 0 rfl rfl
      (by decide) rfl⟩

/-! ## C10: masking of the cache-control keyword argument -/

theorem alFind_alErase_self {α β : Type} [DecidableEq α]
    (l : List (α × β)) (k : α) : alFind (alErase l k) k = Option.none := by
  induction l with
  | nil => simp [alErase, alFind]
  | cons p ps ih =>
    by_cases hp : p.1 = k
    · simp only [alErase, if_pos hp, ih]
    · simp only [alErase, if_neg hp, alFind, if_neg hp, ih]

theorem alFind_alErase_ne {α β : Type} [DecidableEq α]
    (l : List (α × β)) (k k' : α) (h : k' ≠ k) :
    alFind (alErase l k) k' = alFind l k' := by
  induction l with
  | nil => simp [alErase, alFind]
  | cons p ps ih =>
    by_cases hp : p.1 = k
    · have hp' : ¬ (p.1 = k') := by rw [hp]; exact fun hc => h hc.symm
      simp only [alErase, if_pos hp, ih, alFind, if_neg hp']
    · simp only [alErase, if_neg hp, alFind, ih]

/-- C10: every memoized call removes the cache-control keyword
argument `cache` before the mapper computes the key and before the
wrapped computation runs: the masked keyword arguments contain no
`cache` binding while every other binding is passed through unchanged,
and both wrappers' results depend on the mapper and the wrapped
computation only through their values at cache-free keyword
arguments (so neither ever observes the `cache` argument). -/
theorem cache_kwarg_masking :
    (∀ (β : Type) [DecidableEq β] (kwargs : List (String × β)),
      alFind (alErase kwargs "cache") "cache" = Option.none) ∧
    (∀ (β : Type) [DecidableEq β] (kwargs : List (String × β)) (k : String),
      k ≠ "cache" →
      alFind (alErase kwargs "cache") k = alFind kwargs k) ∧
    (∀ (name : String)
       (m₁ m₂ : List PyVal → List (String × PyVal) → CacheKey)
       (f₁ f₂ : List PyVal → List (String × PyVal) → PyVal)
       (st : TransientState) (args : List PyVal)
       (kwargs : List (String × PyVal)),
      (∀ a kw, alFind kw "cache" = Option.none → m₁ a kw = m₂ a kw) →
      (∀ a kw, alFind kw "cache" = Option.none → f₁ a kw = f₂ a kw) →
      transientCall name m₁ f₁ st args kwargs =
        transientCall name m₂ f₂ st args kwargs) ∧
    (∀ (S : Type) (name : String)
       (m₁ m₂ : List PyVal → List (String × KwVal S) → CacheKey)
       (f₁ f₂ : List PyVal → List (String × KwVal S) → PyVal)
       (globalCache : Option (PBackend S)) (store : S)
       (args : List PyVal) (kwargs : List (String × KwVal S)),
      (∀ a kw, alFind kw "cache" = Option.none → m₁ a kw = m₂ a kw) →
      (∀ a kw, alFind kw "cache" = Option.none → f₁ a kw = f₂ a kw) →
      persistentCall name m₁ f₁ globalCache store args kwargs =
        persistentCall name m₂ f₂ globalCache store args kwargs) := by
  refine ⟨?_, ?_, ?_, ?_⟩
  · intro β _ kwargs
    exact alFind_alErase_self kwargs "cache"
  · intro β _ kwargs k hk
    exact alFind_alErase_ne kwargs "cache" k hk
  · intro name m₁ m₂ f₁ f₂ st args kwargs hm hf
    rw [transientCall_eq, transientCall_eq,
      hm args _ (alFind_alErase_self kwargs "cache"),
      hf args _ (alFind_alErase_self kwargs "cache")]
  · intro S name m₁ m₂ f₁ f₂ globalCache store args kwargs hm hf
    rw [persistentCall_eq, persistentCall_eq,
      hm args _ (alFind_alErase_self kwargs "cache"),
      hf args _ (alFind_alErase_self kwargs "cache")]

/-- Witness for the masking property: concrete masked kwargs, and a
pair of computations that differ only when they see a `cache` binding
yet give equal memoized calls. -/
theorem cache_kwarg_masking_witness :
    alFind (alErase [("cache", PyVal.int 1), ("x", PyVal.int 2)] "cache")
      "cache" = Option.none ∧
    alFind (alErase [("cache", PyVal.int 1), ("x", PyVal.int 2)] "cache")
      "x" = alFind [("cache", PyVal.int 1), ("x", PyVal.int 2)] "x" ∧
    transientCall "w6" (fun a _ => a)
        (fun _ kw =>
          match alFind kw "cache" with
          | some _ => PyVal.int 1
          | Option.none => PyVal.int 2)
        initState [] [("cache", PyVal.str "c2"), ("y", PyVal.int 7)] =
      transientCall "w6" (fun a _ => a) (fun _ _ => PyVal.int 2)
        initState [] [("cache", PyVal.str "c2"), ("y", PyVal.int 7)] ∧
    persistentCall "w6" (fun a _ => a)
        (fun _ kw =>
          match alFind kw "cache" with
          | some _ => PyVal.int 1
          | Option.none => PyVal.int 2)
        (some listBackend) [] []
        [("y", KwVal.py (PyVal.int 7))] =
      persistentCall "w6" (fun a _ => a) (fun _ _ => PyVal.int 2)
        (some listBackend) [] [] [("y", KwVal.py (PyVal.int 7))] :=
  ⟨cache_kwarg_masking.1 PyVal [("cache", PyVal.int 1), ("x", PyVal.int 2)],
    cache_kwarg_masking.2.1 PyVal [("cache", PyVal.int 1), ("x", PyVal.int 2)]
      "x" (by decide),
    cache_kwarg_masking.2.2.1 "w6" (fun a _ => a) (fun a _ => a) _
      (fun _ _ => PyVal.int 2) initState []
      [("cache", PyVal.str "c2"), ("y", PyVal.int 7)]
      (fun _ _ _ => rfl) (fun a kw h => by simp only [h]),
    cache_kwarg_masking.2.2.2 _ "w6" (fun a _ => a) (fun a _ => a) _
      (fun _ _ => PyVal.int 2) (some listBackend) [] []
      [("y", KwVal.py (PyVal.int 7))]
      (fun _ _ _ => rfl) (fun a kw h => by simp only [h])⟩

/-! ## C3: filesystem `get` and corrupt entries -/

/-- C3 (counterexample): with a corrupt stored entry at the target
path, the current `FileSystemPersistentCache.get` propagates the
deserialization failure as an exception instead of reporting
absence. -/
theorem fs_get_corrupt_counterexample :
    FileSystemPersistentCache.get
        [("/tmp/k.pickle", FsNode.file SerData.corrupt)] "/tmp/k.pickle" =
      Except.error () ∧
    FileSystemPersistentCache.get
        [("/tmp/k.pickle", FsNode.file SerData.corrupt)] "/tmp/k.pickle" ≠
      Except.ok PyVal.none :=
  ⟨rfl, by decide⟩

/-- C3 (amended): `FileSystemPersistentCache.get` reports absence when
the target path does not exist or is not a regular file, and returns
a well-formed stored value; but a deserialization failure (corrupt
stored data) propagates as an exception to the caller.  Only the
legacy `FileSystemPersistentCachingBackend.get` converts
deserialization failures to absence. -/
theorem fs_get_absence_amended :
    (∀ (fs : FileSystem) (key : String),
      alFind fs key = Option.none →
      FileSystemPersistentCache.get fs key = Except.ok PyVal.none) ∧
    (∀ (fs : FileSystem) (key : String),
      alFind fs key = some FsNode.dir →
      FileSystemPersistentCache.get fs key = Except.ok PyVal.none) ∧
    (∀ (fs : FileSystem) (key : String) (v : PyVal),
      alFind fs key = some (FsNode.file (SerData.ser v)) →
      FileSystemPersistentCache.get fs key = Except.ok v) ∧
    (∀ (fs : FileSystem) (key : String),
      alFind fs key = some (FsNode.file SerData.corrupt) →
      FileSystemPersistentCache.get fs key = Except.error ()) ∧
    (∀ (pyHash : String → Int) (root : String) (fs : FileSystem)
       (key : String),
      alFind fs (pathForKey pyHash root key) =
        some (FsNode.file SerData.corrupt) →
      FileSystemPersistentCachingBackend.get pyHash root fs key =
        PyVal.none) := by
  refine ⟨?_, ?_, ?_, ?_, ?_⟩
  · intro fs key h
    unfold FileSystemPersistentCache.get
    rw [h]
  · intro fs key h
    unfold FileSystemPersistentCache.get
    rw [h]
  · intro fs key v h
    unfold FileSystemPersistentCache.get
    rw [h]
    rfl
  · intro fs key h
    unfold FileSystemPersistentCache.get
    rw [h]
    rfl
  · intro pyHash root fs key h
    unfold FileSystemPersistentCachingBackend.get
    simp only [h]
    rfl

/-- Witness for the filesystem `get` behavior, over a store holding a
well-formed entry, a corrupt entry and a directory. -/
theorem fs_get_absence_amended_witness :
    FileSystemPersistentCache.get
        [("good", FsNode.file (SerData.ser (PyVal.int 3))),
          ("bad", FsNode.file SerData.corrupt), ("d", FsNode.dir)]
        "missing" = Except.ok PyVal.none ∧
    FileSystemPersistentCache.get
        [("good", FsNode.file (SerData.ser (PyVal.int 3))),
          ("bad", FsNode.file SerData.corrupt), ("d", FsNode.dir)]
        "d" = Except.ok PyVal.none ∧
    FileSystemPersistentCache.get
        [("good", FsNode.file (SerData.ser (PyVal.int 3))),
          ("bad", FsNode.file SerData.corrupt), ("d", FsNode.dir)]
        "good" = Except.ok (PyVal.int 3) ∧
    FileSystemPersistentCache.get
        [("good", FsNode.file (SerData.ser (PyVal.int 3))),
          ("bad", FsNode.file SerData.corrupt), ("d", FsNode.dir)]
        "bad" = Except.error () ∧
    FileSystemPersistentCachingBackend.get (fun _ => 7) "/r"
        [("/r/7.pickle", FsNode.file SerData.corrupt)] "k" = PyVal.none :=
  ⟨fs_get_absence_amended.1 _ "missing" rfl,
    fs_get_absence_amended.2.1 _ "d" rfl,
    fs_get_absence_amended.2.2.1 _ "good" (PyVal.int 3) rfl,
    fs_get_absence_amended.2.2.2.1 _ "bad" rfl,
    fs_get_absence_amended.2.2.2.2 (fun _ => 7) "/r"
      [("/r/7.pickle", FsNode.file SerData.corrupt)] "k" rfl⟩

/-! ## C8: redis backend reconstruction -/

/-- C8: the redis backend is reconstructable purely from its original
configuration parameters.  Pickling state (`__getstate__` =
construction args, kwargs and prefix) followed by `__setstate__`
reproduces a freshly initialized instance exactly, and for an
arbitrary instance it reproduces the prefix and configuration, so key
construction behaves identically to the original's. -/
theorem redis_reconstruct_roundtrip :
    (∀ (args : List PyVal) (kwargs : List (String × PyVal)),
      RedisPersistentCache.setstate
          (RedisPersistentCache.getstate
            (RedisPersistentCache.init args kwargs)) =
        RedisPersistentCache.init args kwargs) ∧
    (∀ c : RedisPersistentCache,
      (RedisPersistentCache.setstate (RedisPersistentCache.getstate c)).args =
          c.args ∧
        (RedisPersistentCache.setstate
          (RedisPersistentCache.getstate c)).kwargs = c.kwargs ∧
        (RedisPersistentCache.setstate
          (RedisPersistentCache.getstate c)).pfx = c.pfx ∧
        ∀ (name : String) (args : List PyVal)
          (kwargs : List (String × PyVal)),
          (RedisPersistentCache.setstate (RedisPersistentCache.getstate c)).key
              name args kwargs =
            c.key name args kwargs) :=
  ⟨fun _ _ => rfl, fun _ => ⟨rfl, rfl, rfl, fun _ _ _ => rfl⟩⟩

/-! ## C4: the default persistent cache key -/

/-- C4 (counterexample): with a `hash` stand-in returning 11, the base
class's default key for `f(1, 2)` is `"f_11"` and not the
precise/human-legible strategy (b) rendering `"f(1, 2)"`: the default
key construction is hash-based, not human-legible.  (The amended
theorem shows the mismatch for every possible hash value.) -/
theorem default_key_counterexample :
    PersistentCache.key (fun _ => (11 : Int)) "f" [PyVal.int 1, PyVal.int 2]
        [] = "f_11" ∧
    PersistentCache.key (fun _ => (11 : Int)) "f" [PyVal.int 1, PyVal.int 2]
        [] ≠ specLegibleKey "f" [PyVal.int 1, PyVal.int 2] [] :=
  ⟨rfl, by decide⟩

/-- C4 (amended): the base class's default key method is hash-based —
Cache Key Builder strategy (a): it renders
`name_<hash(repr(args) + repr(kwargs))>` and is determined by the
`repr`s of the arguments alone; the precise/human-legible strategy (b)
rendering `funcname(arg1, ..., kw=val)` is produced by the
`RedisPersistentCache.key` override (prefixed by its configured
prefix), not by the base class. -/
theorem default_key_hash_based :
    (∀ (pyHash : String → Int) (name : String) (args : List PyVal)
       (kwargs : List (String × PyVal)),
      PersistentCache.key pyHash name args kwargs =
        name ++ "_" ++
          toString (pyHash (pyReprTuple args ++ pyReprDict kwargs))) ∧
    (∀ (pyHash : String → Int) (name : String) (a₁ a₂ : List PyVal)
       (k₁ k₂ : List (String × PyVal)),
      pyReprTuple a₁ = pyReprTuple a₂ → pyReprDict k₁ = pyReprDict k₂ →
      PersistentCache.key pyHash name a₁ k₁ =
        PersistentCache.key pyHash name a₂ k₂) ∧
    (∀ (c : RedisPersistentCache) (name : String) (args : List PyVal)
       (kwargs : List (String × PyVal)),
      c.key name args kwargs = c.pfx ++ specLegibleKey name args kwargs) ∧
    (∀ h : Int,
      PersistentCache.key (fun _ => h) "f" [PyVal.int 1, PyVal.int 2] [] ≠
        specLegibleKey "f" [PyVal.int 1, PyVal.int 2] []) := by
  refine ⟨fun _ _ _ _ => rfl, ?_, ?_, ?_⟩
  · intro pyHash name a₁ a₂ k₁ k₂ ha hk
    unfold PersistentCache.key
    rw [ha, hk]
  · intro c name args kwargs
    unfold RedisPersistentCache.key specLegibleKey
    by_cases hc : String.intercalate ", " (args.map pyRepr) ≠ "" ∧
        String.intercalate ", "
          (kwargs.map (fun p => p.1 ++ "=" ++ pyRepr p.2)) ≠ ""
    · simp only [if_pos hc]
      simp [String.append_assoc]
    · simp only [if_neg hc]
      simp [String.append_assoc]
  · intro h heq
    have hdata := congrArg String.data heq
    rw [show specLegibleKey "f" [PyVal.int 1, PyVal.int 2] [] = "f(1, 2)"
        from rfl,
      show PersistentCache.key (fun _ => h) "f" [PyVal.int 1, PyVal.int 2]
          [] = "f_" ++ toString h from rfl,
      String.data_append] at hdata
    rw [show ("f_").data = ['f', '_'] from rfl,
      show ("f(1, 2)").data = ['f', '(', '1', ',', ' ', '2', ')'] from rfl]
      at hdata
    simp at hdata

/-- Witness for the hash-based default key: the default key of
`f(1, 2)` under a hash stand-in returning 11, the repr-determinacy at
equal arguments, the redis override producing the human-legible key
`p-f(1, 2)`, and the default-vs-legible mismatch at hash value 13. -/
theorem default_key_hash_based_witness :
    PersistentCache.key (fun _ => (11 : Int)) "f" [PyVal.int 1, PyVal.int 2]
        [] =
      "f" ++ "_" ++
        toString ((fun _ => (11 : Int))
          (pyReprTuple [PyVal.int 1, PyVal.int 2] ++ pyReprDict [])) ∧
    PersistentCache.key (fun _ => (11 : Int)) "f" [PyVal.int 1, PyVal.int 2]
        [] =
      PersistentCache.key (fun _ => (11 : Int)) "f" [PyVal.int 1, PyVal.int 2]
        [] ∧
    (RedisPersistentCache.init [] [("prefix", PyVal.str "p")]).key "f"
        [PyVal.int 1, PyVal.int 2] [] =
      (RedisPersistentCache.init [] [("prefix", PyVal.str "p")]).pfx ++
        specLegibleKey "f" [PyVal.int 1, PyVal.int 2] [] ∧
    PersistentCache.key (fun _ => (13 : Int)) "f" [PyVal.int 1, PyVal.int 2]
        [] ≠ specLegibleKey "f" [PyVal.int 1, PyVal.int 2] [] :=
  ⟨default_key_hash_based.1 (fun _ => (11 : Int)) "f"
      [PyVal.int 1, PyVal.int 2] [],
    default_key_hash_based.2.1 (fun _ => (11 : Int)) "f"
      [PyVal.int 1, PyVal.int 2] [PyVal.int 1, PyVal.int 2] [] [] rfl rfl,
    default_key_hash_based.2.2.1
      (RedisPersistentCache.init [] [("prefix", PyVal.str "p")]) "f"
      [PyVal.int 1, PyVal.int 2] [],
    default_key_hash_based.2.2.2 13⟩
